import Mathlib

/-!
Verification of the dokito-backend docket pipeline.

This file gives a shallow embedding of the parts of the Rust sources that the
checked properties talk about, and proves or refutes each property.  Rust
machine integers that matter here are dates and UUIDs; dates are embedded as
`Int` in the order-preserving `yyyymmdd` digit encoding, and UUIDs as `Nat`
with `0` standing for `Uuid::nil()`.  Database tables are embedded as lists of
row structures, with `fetch_optional` of a `WHERE` query embedded as
`List.find?` of the row predicate, and fresh identifiers (`Uuid::new_v4`,
`RETURNING uuid` of a generated key) passed in as explicit parameters.
-/

namespace Dokito

/-- Dates as `yyyymmdd`-encoded integers; `Int` order agrees with calendar
order on this encoding. -/
abbrev Date := Int

/-- Embedding of `chrono::NaiveDate::MAX` (`+262143-12-31`), the far-future
sentinel used by `opened_date_from_fillings`. -/
def naiveDateMax : Date := 2621431231

/-! ### `opened_date` computation of `ProcessedGenericDocket::process_from`
(`dokito_processing_monolith/src/openscraper_data_traits.rs`, lines 114-134).

The Rust loop is
```
let original_date = input.opened_date;
let mut min_date = original_date;
for filling_date in input.filings.iter().filter_map(|f| f.filed_date) {
    if let Some(real_min_date) = min_date && filling_date < real_min_date {
        min_date = Some(filling_date);
        ...warn...
    };
}
min_date.unwrap_or(NaiveDate::MAX)
```
-/

/-- One step of the loop body: the candidate minimum is replaced only when it
is `some` and the filing date is strictly smaller. -/
def openedDateStep (min_date : Option Date) (filling_date : Date) : Option Date :=
  match min_date with
  | some real_min_date =>
      if filling_date < real_min_date then some filling_date else min_date
  | none => min_date

/-- The `opened_date` actually stored on the processed docket: the loop above
folded over the set `filed_date`s of the raw filings, then
`unwrap_or(NaiveDate::MAX)`. -/
def opened_date_from_fillings (original_date : Option Date)
    (filed_dates : List (Option Date)) : Date :=
  ((filed_dates.filterMap id).foldl openedDateStep original_date).getD naiveDateMax

/-! ### Attachment URL index
(`dokito_processing_monolith/src/indexes/attachment_url_index.rs` and
`indexes/s3_storage_and_saving.rs`).

The `BTreeMap<String, RawAttachment>` index is embedded as an association
list; only the `url` and `hash` of a `RawAttachment` matter here. -/

/-- The payload stored in the URL index: a raw attachment carrying its
content hash. -/
structure RawAttachmentM where
  url : String
  hash : Nat
  deriving DecidableEq, Repr

/-- The global URL index (`AttachIndex = BTreeMap<String, RawAttachment>`). -/
abbrev AttachIndex := List (String × RawAttachmentM)

/-- `pull_index_from_s3`: try the downloaded serialized index, then the
regenerated one, then fall back to the empty map.  The two fallible I/O
results are passed in as `Option`s. -/
def pull_index_from_s3 (downloaded : Option AttachIndex)
    (generated : Option AttachIndex) : AttachIndex :=
  match downloaded with
  | some fetched_index => fetched_index
  | none =>
      match generated with
      | some generated_index => generated_index
      | none => []

/-- `lookup_hash_from_url`: a `BTreeMap::get` on the index. -/
def lookup_hash_from_url (index : AttachIndex) (url : String) :
    Option RawAttachmentM :=
  (index.find? (fun p => p.1 = url)).map (fun p => p.2)

/-! ### Rust string primitives

`str::split(pattern)` and `str::trim()` are embedded as structurally
recursive functions over the character list of the string, so that concrete
instances evaluate inside the kernel.  `rustSplit` matches Rust's semantics
for a non-empty literal pattern: split at each non-overlapping occurrence,
scanning left to right, keeping empty pieces; `rustTrim` strips whitespace
from both ends (the whitespace set is restricted to ASCII whitespace, which
covers every string these dockets carry). -/

/-- ASCII whitespace test standing in for Rust's `char::is_whitespace`. -/
def isRustWhitespace (c : Char) : Bool :=
  c = ' ' ∨ c = '\t' ∨ c = '\n' ∨ c = '\r'

/-- `str::trim()`. -/
def rustTrim (s : String) : String :=
  ⟨((s.data.dropWhile isRustWhitespace).reverse.dropWhile
      isRustWhitespace).reverse⟩

/-- Prepend a character to the first piece of a split result. -/
def splitConsHead (c : Char) : List (List Char) → List (List Char)
  | [] => [[c]]
  | p :: ps => (c :: p) :: ps

/-- Fuel-indexed core of `str::split`: each step either consumes one
occurrence of the (non-empty) separator or one character, so fuel equal to
the string length always suffices; the fuel-exhausted fallback is reached
only on the empty string, where it agrees with the terminating case. -/
def splitFuel (sep : List Char) : Nat → List Char → List (List Char)
  | 0, s => [s]
  | Nat.succ n, s =>
      if sep ≠ [] ∧ sep.isPrefixOf s then
        [] :: splitFuel sep n (s.drop sep.length)
      else
        match s with
        | [] => [[]]
        | c :: cs => splitConsHead c (splitFuel sep n cs)

/-- `str::split(sep)` collected into a vector, for non-empty literal `sep`. -/
def rustSplit (s sep : String) : List String :=
  (splitFuel sep.data s.data.length s.data).map (fun l => ⟨l⟩)

/-! ### `Revalidate` for processed dockets
(`dokito_processing_monolith/src/openscraper_data_traits.rs`, lines 33-101).

`RevalidationOutcome` is embedded as `Bool` (`true` = `DidChange`).  The
global attachment index consulted by the attachment pass and the fresh UUID
minted for nil `object_uuid`s are passed in as parameters. -/

/-- Processed attachment, restricted to the fields `revalidate` reads. -/
structure ProcessedGenericAttachmentM where
  object_uuid : Nat
  name : String
  url : String
  hash : Option Nat
  deriving DecidableEq, Repr

/-- Processed filing, restricted to the fields `revalidate` reads. -/
structure ProcessedGenericFilingM where
  object_uuid : Nat
  name : String
  attachments : List ProcessedGenericAttachmentM
  deriving DecidableEq, Repr

/-- Processed docket, restricted to the fields `revalidate` reads. -/
structure ProcessedGenericDocketM where
  object_uuid : Nat
  case_type : String
  case_subtype : String
  filings : List ProcessedGenericFilingM
  deriving DecidableEq, Repr

/-- `Revalidate for ProcessedGenericAttachment`: mint a UUID when nil, and
fill a missing hash from the URL index when the URL is non-empty. -/
def revalidateAttachment (freshUuid : Nat) (index : AttachIndex)
    (a : ProcessedGenericAttachmentM) : ProcessedGenericAttachmentM × Bool :=
  let (a, did_change) :=
    if a.object_uuid = 0 then ({ a with object_uuid := freshUuid }, true)
    else (a, false)
  if a.hash = none ∧ a.url ≠ "" then
    match lookup_hash_from_url index a.url with
    | some raw_attach => ({ a with hash := some raw_attach.hash }, did_change)
    | none => (a, did_change)
  else (a, did_change)

/-- `Revalidate for ProcessedGenericFiling`: mint a UUID when nil, pull the
first non-empty attachment name into an empty filing name, then revalidate
each attachment (all attachments share the fresh-UUID parameter; none of the
checked properties depends on distinctness of minted UUIDs). -/
def revalidateFiling (freshUuid : Nat) (index : AttachIndex)
    (f : ProcessedGenericFilingM) : ProcessedGenericFilingM × Bool :=
  let (f, did_change) :=
    if f.object_uuid = 0 then ({ f with object_uuid := freshUuid }, true)
    else (f, false)
  let (f, did_change) :=
    if f.name = "" then
      match f.attachments.find? (fun a => a.name ≠ "") with
      | some attach => ({ f with name := attach.name }, true)
      | none => (f, did_change)
    else (f, did_change)
  let passes := f.attachments.map (revalidateAttachment freshUuid index)
  ({ f with attachments := passes.map Prod.fst },
    passes.foldl (fun acc p => acc || p.2) did_change)

/-- `Revalidate for ProcessedGenericDocket`: mint a UUID when nil, split
`case_type` on `"-"` into type and subtype when the subtype is empty and the
split yields exactly two pieces, then revalidate each filing. -/
def revalidateDocket (freshUuid : Nat) (index : AttachIndex)
    (d : ProcessedGenericDocketM) : ProcessedGenericDocketM × Bool :=
  let (d, did_change) :=
    if d.object_uuid = 0 then ({ d with object_uuid := freshUuid }, true)
    else (d, false)
  let (d, did_change) :=
    if d.case_subtype = "" then
      match rustSplit d.case_type "-" with
      | [x0, x1] =>
          ({ d with case_type := rustTrim x0, case_subtype := rustTrim x1 }, true)
      | _ => (d, did_change)
    else (d, did_change)
  let passes := d.filings.map (revalidateFiling freshUuid index)
  ({ d with filings := passes.map Prod.fst },
    passes.foldl (fun acc p => acc || p.2) did_change)

/-! ### Docket upsert of `ingest_sql_nypuc_case`
(`dokito_processing_monolith/src/sql_ingester_tasks/nypuc_ingest.rs`,
lines 261-289).

The `dockets` table is a list of rows; `INSERT ... ON CONFLICT (uuid) DO
UPDATE SET <all listed columns> = EXCLUDED...` either rewrites the row whose
`uuid` equals the incoming one with the incoming values, or appends the new
row.  Only the columns the checked property reads are kept. -/

/-- A `dockets` row restricted to key, natural key and one payload column. -/
structure DocketRow where
  uuid : Nat
  docket_govid : String
  docket_title : String
  deriving DecidableEq, Repr

/-- The docket upsert of `ingest_sql_nypuc_case`: conflict target is `uuid`
only. -/
def upsert_docket (tbl : List DocketRow) (new : DocketRow) : List DocketRow :=
  if tbl.any (fun r => r.uuid == new.uuid) then
    tbl.map (fun r => if r.uuid == new.uuid then new else r)
  else tbl ++ [new]

/-! ### Organization identity resolution
(`dokito_processing_monolith/src/sql_ingester_tasks/nypuc_ingest.rs`
`fetch_or_insert_new_orgname`, lines 375-410, and
`sql_ingester_tasks/database_author_association.rs`
`associate_organization_with_name`, lines 97-140).

The `organizations` table is a list of rows (the `description` column, which
no checked property reads, is dropped from the row model).  `fetch_optional`
is `List.find?`; the fresh key (`RETURNING uuid` of a generated key in
`fetch_or_insert_new_orgname`, `Uuid::new_v4` in
`associate_organization_with_name`) is a parameter. -/

/-- An `organizations` row. -/
structure OrganizationRow where
  uuid : Nat
  name : String
  artifical_person_type : String
  aliases : List String
  org_suffix : String
  deriving DecidableEq, Repr

/-- `OrgName`: a normalized name with a trailing suffix. -/
structure OrgNameM where
  name : String
  suffix : String
  deriving DecidableEq, Repr

/-- `fetch_or_insert_new_orgname`: select by `name` and
`artifical_person_type = 'organization'`; on match update an empty row
suffix from a non-empty incoming one and return the row's uuid; otherwise
insert `(name, 'organization', [name], suffix)`. -/
def fetch_or_insert_new_orgname (org_author : OrgNameM)
    (tbl : List OrganizationRow) (freshUuid : Nat) :
    Nat × List OrganizationRow :=
  match tbl.find? (fun r =>
      r.name == org_author.name && r.artifical_person_type == "organization") with
  | some org_record =>
      let tbl :=
        if org_record.org_suffix = "" ∧ org_author.suffix ≠ "" then
          tbl.map (fun r =>
            if r.uuid == org_record.uuid then { r with org_suffix := org_author.suffix }
            else r)
        else tbl
      (org_record.uuid, tbl)
  | none =>
      (freshUuid,
        tbl ++ [{ uuid := freshUuid, name := org_author.name,
                  artifical_person_type := "organization",
                  aliases := [org_author.name],
                  org_suffix := org_author.suffix }])

/-- The inline `ProcessedGenericOrganization`, restricted to the fields
`associate_organization_with_name` reads. -/
structure ProcessedGenericOrganizationM where
  truncated_org_name : String
  org_suffix : String
  object_uuid : Nat
  deriving DecidableEq, Repr

/-- `associate_organization_with_name`: a non-nil incoming uuid is accepted
when it resolves to a row with the same name; otherwise match by `name`
alone and adopt the row's uuid with no further write; otherwise insert with
`aliases = [name]`, type `'organization'` and — in this function — an empty
`org_suffix` literal. -/
def associate_organization_with_name (org : ProcessedGenericOrganizationM)
    (tbl : List OrganizationRow) (freshUuid : Nat) :
    ProcessedGenericOrganizationM × List OrganizationRow :=
  let fast : Option ProcessedGenericOrganizationM :=
    if org.object_uuid ≠ 0 then
      match tbl.find? (fun r => r.uuid == org.object_uuid) with
      | some matched_record =>
          if matched_record.name == org.truncated_org_name then
            some { org with object_uuid := matched_record.uuid }
          else none
      | none => none
    else none
  match fast with
  | some org => (org, tbl)
  | none =>
      match tbl.find? (fun r => r.name == org.truncated_org_name) with
      | some matched_record =>
          ({ org with object_uuid := matched_record.uuid }, tbl)
      | none =>
          let u := if org.object_uuid = 0 then freshUuid else org.object_uuid
          ({ org with object_uuid := u },
            tbl ++ [{ uuid := u, name := org.truncated_org_name,
                      artifical_person_type := "organization",
                      aliases := [org.truncated_org_name],
                      org_suffix := "" }])

/-! ### Human identity resolution
(`dokito_processing_monolith/src/sql_ingester_tasks/database_author_association.rs`
`associate_individual_author_with_name`, lines 10-93).

`BTreeSet<String>` is embedded as a sorted duplicate-free list built by
ordered insertion; the order is the lexicographic `String` order, which
agrees with Rust's byte-wise `Ord` on `String` because UTF-8 byte order
coincides with code-point order. -/

/-- Lexicographic strict comparison of character lists by code point; this
is Rust's `Ord` on `String`, since UTF-8 byte order coincides with
code-point order. -/
def charListLt : List Char → List Char → Bool
  | _, [] => false
  | [], _ :: _ => true
  | a :: as, b :: bs =>
      if a.toNat < b.toNat then true
      else if b.toNat < a.toNat then false
      else charListLt as bs

/-- Rust's `String` ordering. -/
def strLt (s t : String) : Bool := charListLt s.data t.data

/-- Ordered insertion into a sorted duplicate-free list (`BTreeSet::insert`):
duplicates are dropped. -/
def insertSorted (s : String) : List String → List String
  | [] => [s]
  | x :: xs =>
      if strLt s x then s :: x :: xs
      else if s = x then x :: xs
      else x :: insertSorted s xs

/-- A `BTreeSet<String>` collected from an iterator: ordered insertion of
every element in turn. -/
def btreeOfList (l : List String) : List String :=
  l.foldl (fun acc s => insertSorted s acc) []

/-- The inline `ProcessedGenericHuman`, restricted to the fields
`associate_individual_author_with_name` reads. -/
structure ProcessedGenericHumanM where
  object_uuid : Nat
  western_first_name : String
  western_last_name : String
  contact_emails : List String
  contact_phone_numbers : List String
  deriving DecidableEq, Repr

/-- A `humans` row. -/
structure HumanRow where
  uuid : Nat
  name : String
  western_first_name : String
  western_last_name : String
  contact_emails : List String
  contact_phone_numbers : List String
  deriving DecidableEq, Repr

/-- The western first+last name match used both by the uuid fast path and by
the name lookup. -/
def humanNameMatches (individual : ProcessedGenericHumanM) (r : HumanRow) : Bool :=
  r.western_first_name == individual.western_first_name &&
    r.western_last_name == individual.western_last_name

/-- `associate_individual_author_with_name`.  Result: the individual with its
resolved uuid, the table after the call, and whether the merge `UPDATE` was
issued. -/
def associate_individual_author_with_name (individual : ProcessedGenericHumanM)
    (tbl : List HumanRow) (freshUuid : Nat) :
    ProcessedGenericHumanM × List HumanRow × Bool :=
  let fast : Option ProcessedGenericHumanM :=
    if individual.object_uuid ≠ 0 then
      match tbl.find? (fun r => r.uuid == individual.object_uuid) with
      | some matched_record =>
          if humanNameMatches individual matched_record then
            some { individual with object_uuid := matched_record.uuid }
          else none
      | none => none
    else none
  match fast with
  | some individual => (individual, tbl, false)
  | none =>
      match tbl.find? (humanNameMatches individual) with
      | some matched_record =>
          let merged_emails :=
            btreeOfList (matched_record.contact_emails ++ individual.contact_emails)
          let merged_phones :=
            btreeOfList
              (matched_record.contact_phone_numbers ++ individual.contact_phone_numbers)
          let do_update :=
            (merged_emails.length != matched_record.contact_emails.length) ||
              (merged_phones.length != matched_record.contact_phone_numbers.length)
          let tbl :=
            if do_update then
              tbl.map (fun r =>
                if r.uuid == matched_record.uuid then
                  { r with contact_emails := merged_emails,
                           contact_phone_numbers := merged_phones }
                else r)
            else tbl
          ({ individual with object_uuid := matched_record.uuid }, tbl, do_update)
      | none =>
          let u := if individual.object_uuid = 0 then freshUuid
            else individual.object_uuid
          let name := individual.western_first_name ++ " " ++
            individual.western_last_name
          ({ individual with object_uuid := u },
            tbl ++ [{ uuid := u, name := name,
                      western_first_name := individual.western_first_name,
                      western_last_name := individual.western_last_name,
                      contact_emails := individual.contact_emails,
                      contact_phone_numbers := individual.contact_phone_numbers }],
            false)

/-! ### `delete_all_data`
(`dokito_processing_monolith/src/sql_ingester_tasks/nypuc_ingest.rs`,
lines 412-464; the schema-qualified copy in
`recreate_dokito_table_schema.rs` issues the same six statements).

The database is a row count per table; `TRUNCATE t CASCADE` empties `t` and
every table that transitively references `t` through a foreign key.  The
code runs its six statements inside one transaction with
`statement_timeout = 0`; transactional atomicity is outside this state
model, which composes the statements sequentially. -/

/-- The tables of the dokito relational schema. -/
inductive TableName where
  | dockets
  | fillings
  | attachments
  | humans
  | organizations
  | docket_petitioned_by_org
  | individual_offical_party_to_docket
  | fillings_on_behalf_of_org_relation
  | fillings_filed_by_individual
  | fillings_filed_by_org_relation
  deriving DecidableEq, Repr

/-- Modelled from the spec: the foreign-key graph of the schema.  The
migration SQL that declares the schema is not among the sources; the spec's
relational model (§3) lists the relation tables — each referencing its two
endpoint entity tables, with "All cascades on delete" — and `fillings`
referencing `dockets` and `attachments` referencing `fillings`.
`fillings_filed_by_org_relation` appears only in `delete_all_data` and is
modelled as a fillings/organizations relation like
`fillings_on_behalf_of_org_relation`.  The result lists, for each table, the
tables holding a foreign key directly referencing it. -/
def referencedBy : TableName → List TableName
  | .dockets =>
      [.fillings, .docket_petitioned_by_org, .individual_offical_party_to_docket]
  | .fillings =>
      [.attachments, .fillings_on_behalf_of_org_relation,
        .fillings_filed_by_individual, .fillings_filed_by_org_relation]
  | .organizations =>
      [.docket_petitioned_by_org, .fillings_on_behalf_of_org_relation,
        .fillings_filed_by_org_relation]
  | .humans =>
      [.individual_offical_party_to_docket, .fillings_filed_by_individual]
  | _ => []

/-- One step of the referencing closure. -/
def cascadeStep (acc : List TableName) : List TableName :=
  acc ++ acc.flatMap referencedBy

/-- The tables emptied by `TRUNCATE t CASCADE`: the referencing closure of
`t` (three steps exceed the depth of the graph above). -/
def cascadeClosure (t : TableName) : List TableName :=
  cascadeStep (cascadeStep (cascadeStep [t]))

/-- The relational state: a row count per table. -/
abbrev DbState := TableName → Nat

/-- `TRUNCATE t CASCADE`. -/
def truncate_cascade (s : DbState) (t : TableName) : DbState :=
  fun u => if u ∈ cascadeClosure t then 0 else s u

/-- `delete_all_data`: the six TRUNCATE statements in source order. -/
def delete_all_data (s : DbState) : DbState :=
  [TableName.fillings_filed_by_org_relation,
    TableName.fillings_on_behalf_of_org_relation,
    TableName.attachments,
    TableName.organizations,
    TableName.fillings,
    TableName.dockets].foldl truncate_cascade s

/-! ### ByDateRange intent
(`dokito_processing_monolith/src/server/reprocess_all_handlers.rs`
`download_dokito_cases_with_dates`, lines 88-103, and
`server/queue_routes.rs` `by_daterange_endpoint`, lines 344-387).

The rows fetched from Postgres are `(opened_date, docket_govid)` pairs;
collecting them into a `BTreeMap<NaiveDate, String>` inserts them in order,
a later pair replacing an earlier one with the same date.  The map is an
association list kept sorted by key with replacement on equal keys;
`range(start..=end)` is an inclusive filter over its entries. -/

/-- The `BTreeMap<NaiveDate, String>` model. -/
abbrev DateMap := List (Date × String)

/-- `BTreeMap::insert`: keeps keys sorted, replaces on an equal key. -/
def btreeInsert : DateMap → Date → String → DateMap
  | [], k, v => [(k, v)]
  | (k2, v2) :: rest, k, v =>
      if k < k2 then (k, v) :: (k2, v2) :: rest
      else if k = k2 then (k, v) :: rest
      else (k2, v2) :: btreeInsert rest k v

/-- `download_dokito_cases_with_dates`: collect the fetched rows into the
map. -/
def download_dokito_cases_with_dates (rows : List (Date × String)) : DateMap :=
  rows.foldl (fun m p => btreeInsert m p.1 p.2) []

/-- The govids acted on by `by_daterange_endpoint`: the map's entries with
key in `[start_date, end_date]` inclusive, values taken in key order. -/
def by_daterange_docket_ids (m : DateMap) (start_date end_date : Date) :
    List String :=
  (m.filter (fun p => start_date ≤ p.1 ∧ p.1 ≤ end_date)).map (fun p => p.2)

/-- `BTreeMap::get` on the date map. -/
def lookupDate (m : DateMap) (d : Date) : Option String :=
  (m.find? (fun p => p.1 = d)).map (fun p => p.2)

/-- The govid of the last fetched row with the given date, if any: the value
that survives the map collection for that key. -/
def last_value_for : List (Date × String) → Date → Option String
  | [], _ => none
  | (k, v) :: rest, d =>
      match last_value_for rest d with
      | some g => some g
      | none => if k = d then some v else none

/-! ### `deserialize_vec_or_map`
(`dokito_types/src/processed.rs`, lines 43-61, used by the `filings` and
`attachments` fields of `ProcessedGenericDocket` and
`ProcessedGenericFiling`, lines 112-175).

The untagged input is a JSON list, a string-keyed object, or a
numeric-keyed object; the two map forms are decoded into a `HashMap` and
flattened with `into_values`, which ignores the keys.  `HashMap` iteration
order is arbitrary; it is modelled here as entry order, which if anything
over-approximates the ordering guarantees of the real map. -/

/-- The three accepted input shapes. -/
inductive VecOrMap (T : Type) where
  | vec (xs : List T)
  | map (entries : List (String × T))
  | numKeyMap (entries : List (Nat × T))

/-- `deserialize_vec_or_map`: a list passes through; a map of either key
type yields its values, keys ignored. -/
def deserialize_vec_or_map {T : Type} : VecOrMap T → List T
  | .vec v => v
  | .map m => m.map (fun p => p.2)
  | .numKeyMap m => m.map (fun p => p.2)

/-- The string-keyed map form that describes the same elements as a list:
entry `(toString i, x)` for the element `x` at index `i`. -/
def enumStringKeyed {T : Type} (xs : List T) : List (String × T) :=
  xs.enum.map (fun p => (toString p.1, p.2))

/-! ### `execute_processing_single_action`
(`dokito_processing_monolith/src/server/queue_routes.rs`, lines 125-217).

The per-docket action is embedded as the trace of its externally visible
steps together with its success flag; each fallible step's outcome is a
`Bool` parameter, and a failing step ends the trace (the `?` operator).
The raw-docket payload is represented by its `case_govid`, the only part of
it the trace observes. -/

/-- The four `ProcessingAction` variants. -/
inductive ProcessingAction where
  | processOnly
  | ingestOnly
  | processAndIngest
  | uploadRaw
  deriving DecidableEq, Repr

/-- The orchestrator's per-docket payload: a bare govid or a raw docket. -/
inductive RawDocketOrGovid where
  | govid (gov_id : String)
  | rawInfo (case_govid : String)
  deriving DecidableEq, Repr

/-- The externally visible steps of one per-docket action. -/
inductive S3Effect where
  | uploadRawDocket (docket_govid : String)
  | downloadRawDocket (docket_govid : String)
  | processCase (docket_govid : String)
  | downloadProcessedDocket (docket_govid : String)
  | ingestCase (docket_govid : String)
  deriving DecidableEq, Repr

/-- `execute_processing_single_action`: an incoming raw docket is uploaded
to the blob store before the action dispatch; then the action's own
download/process/ingest steps run in order, stopping at the first
failure. -/
def execute_processing_single_action (info : RawDocketOrGovid)
    (action : ProcessingAction)
    (uploadOk downloadRawOk processOk downloadProcessedOk ingestOk : Bool) :
    List S3Effect × Bool :=
  let gov_id := match info with
    | .govid g => g
    | .rawInfo g => g
  let upload_trace : List S3Effect := match info with
    | .rawInfo _ => [S3Effect.uploadRawDocket gov_id]
    | .govid _ => []
  let upload_failed : Bool := match info with
    | .rawInfo _ => !uploadOk
    | .govid _ => false
  if upload_failed then (upload_trace, false)
  else
    match action with
    | .uploadRaw => (upload_trace, true)
    | .processOnly =>
        let t := upload_trace ++ [S3Effect.downloadRawDocket gov_id]
        if !downloadRawOk then (t, false)
        else
          let t := t ++ [S3Effect.processCase gov_id]
          if !processOk then (t, false) else (t, true)
    | .processAndIngest =>
        let t := upload_trace ++ [S3Effect.downloadRawDocket gov_id]
        if !downloadRawOk then (t, false)
        else
          let t := t ++ [S3Effect.processCase gov_id]
          if !processOk then (t, false)
          else
            let t := t ++ [S3Effect.ingestCase gov_id]
            if !ingestOk then (t, false) else (t, true)
    | .ingestOnly =>
        let t := upload_trace ++ [S3Effect.downloadProcessedDocket gov_id]
        if !downloadProcessedOk then (t, false)
        else
          let t := t ++ [S3Effect.ingestCase gov_id]
          if !ingestOk then (t, false) else (t, true)

end Dokito

namespace Dokito

/-- Code points determine characters. -/
theorem charToNat_inj {a b : Char} (h : a.toNat = b.toNat) : a = b :=
  Char.ext (UInt32.ext h)

/-- `charListLt` is trichotomous: two unequal lists compare strictly in one
direction. -/
theorem charListLt_of_not_lt :
    ∀ {l m : List Char}, charListLt l m = false → l ≠ m →
      charListLt m l = true := by
  intro l
  induction l with
  | nil =>
      intro m h hne
      cases m with
      | nil => exact absurd rfl hne
      | cons b bs => simp [charListLt] at h
  | cons a as ih =>
      intro m h hne
      cases m with
      | nil => rfl
      | cons b bs =>
          simp only [charListLt] at h ⊢
          rcases Nat.lt_trichotomy a.toNat b.toNat with hab | hab | hab
          · rw [if_pos hab] at h
            exact absurd h (by simp)
          · have hba : ¬ b.toNat < a.toNat := by omega
            have hnab : ¬ a.toNat < b.toNat := by omega
            rw [if_neg hnab, if_neg hba] at h
            have heq : a = b := charToNat_inj hab
            subst heq
            rw [if_neg hba, if_neg hba]
            exact ih h (by
              intro hcontr
              exact hne (by rw [hcontr]))
          · rw [if_pos hab]

/-- `charListLt` is transitive. -/
theorem charListLt_trans :
    ∀ {l m n : List Char}, charListLt l m = true → charListLt m n = true →
      charListLt l n = true := by
  intro l
  induction l with
  | nil =>
      intro m n h1 h2
      cases m with
      | nil => exact absurd h1 (by simp [charListLt])
      | cons b bs =>
          cases n with
          | nil => exact absurd h2 (by simp [charListLt])
          | cons c cs => rfl
  | cons a as ih =>
      intro m n h1 h2
      cases m with
      | nil => exact absurd h1 (by simp [charListLt])
      | cons b bs =>
          cases n with
          | nil => exact absurd h2 (by simp [charListLt])
          | cons c cs =>
              simp only [charListLt] at h1 h2 ⊢
              rcases Nat.lt_trichotomy a.toNat b.toNat with hab | hab | hab
              · rcases Nat.lt_trichotomy b.toNat c.toNat with hbc | hbc | hbc
                · rw [if_pos (by omega)]
                · rw [if_pos (by omega)]
                · rw [if_pos hbc, if_neg (by omega)] at h2
                  exact absurd h2 (by simp)
              · have heq : a = b := charToNat_inj hab
                subst heq
                rw [if_neg (by omega), if_neg (by omega)] at h1
                rcases Nat.lt_trichotomy a.toNat c.toNat with hac | hac | hac
                · rw [if_pos hac]
                · have heq2 : a = c := charToNat_inj hac
                  subst heq2
                  rw [if_neg (by omega), if_neg (by omega)] at h2 ⊢
                  exact ih h1 h2
                · rw [if_pos hac, if_neg (by omega)] at h2
                  exact absurd h2 (by simp)
              · rw [if_pos hab, if_neg (by omega)] at h1
                exact absurd h1 (by simp)

/-- Trichotomy lifted to `strLt`. -/
theorem strLt_of_not_lt {s t : String} (h : strLt s t = false) (hne : s ≠ t) :
    strLt t s = true := by
  refine charListLt_of_not_lt h ?_
  intro hdata
  apply hne
  cases s
  cases t
  exact congrArg String.mk hdata

/-- Transitivity lifted to `strLt`. -/
theorem strLt_trans {s t u : String} (h1 : strLt s t = true)
    (h2 : strLt t u = true) : strLt s u = true :=
  charListLt_trans h1 h2

/-- Membership in an ordered insertion. -/
theorem mem_insertSorted {a s : String} {l : List String} :
    a ∈ insertSorted s l ↔ a = s ∨ a ∈ l := by
  induction l with
  | nil => simp [insertSorted]
  | cons x xs ih =>
      by_cases h1 : strLt s x = true
      · simp [insertSorted, h1]
      · rw [Bool.not_eq_true] at h1
        by_cases h2 : s = x
        · subst h2
          simp only [insertSorted, h1, Bool.false_eq_true, if_false, if_pos rfl]
          constructor
          · intro h
            exact Or.inr h
          · intro h
            rcases h with rfl | h
            · exact List.mem_cons_self _ _
            · exact h
        · simp only [insertSorted, h1, Bool.false_eq_true, if_false, if_neg h2,
            List.mem_cons, ih]
          tauto

/-- Ordered insertion preserves strict sortedness. -/
theorem sorted_insertSorted {s : String} {l : List String}
    (h : l.Sorted (fun a b => strLt a b = true)) :
    (insertSorted s l).Sorted (fun a b => strLt a b = true) := by
  induction l with
  | nil => simp [insertSorted]
  | cons x xs ih =>
      rw [List.sorted_cons] at h
      obtain ⟨hx, hxs⟩ := h
      by_cases h1 : strLt s x = true
      · simp only [insertSorted, if_pos h1]
        rw [List.sorted_cons]
        refine ⟨?_, List.sorted_cons.mpr ⟨hx, hxs⟩⟩
        intro b hb
        rcases List.mem_cons.mp hb with rfl | hb
        · exact h1
        · exact strLt_trans h1 (hx b hb)
      · rw [Bool.not_eq_true] at h1
        by_cases h2 : s = x
        · simp only [insertSorted, h1, Bool.false_eq_true, if_false, if_pos h2]
          exact List.sorted_cons.mpr ⟨hx, hxs⟩
        · have hxlt : strLt x s = true := strLt_of_not_lt h1 h2
          simp only [insertSorted, h1, Bool.false_eq_true, if_false, if_neg h2]
          rw [List.sorted_cons]
          refine ⟨?_, ih hxs⟩
          intro b hb
          rcases mem_insertSorted.mp hb with rfl | hb
          · exact hxlt
          · exact hx b hb

/-- Membership in the ordered-insertion fold, generalized over the
accumulator. -/
theorem mem_btreeFold {a : String} :
    ∀ (l acc : List String),
      (a ∈ l.foldl (fun acc s => insertSorted s acc) acc ↔ a ∈ l ∨ a ∈ acc) := by
  intro l
  induction l with
  | nil => simp
  | cons x xs ih =>
      intro acc
      simp only [List.foldl_cons, ih, mem_insertSorted, List.mem_cons]
      tauto

/-- The `BTreeSet` model contains exactly the elements of its input list. -/
theorem mem_btreeOfList {a : String} {l : List String} :
    a ∈ btreeOfList l ↔ a ∈ l := by
  simp [btreeOfList, mem_btreeFold]

/-- The ordered-insertion fold preserves sortedness of the accumulator. -/
theorem sorted_btreeFold :
    ∀ (l acc : List String), acc.Sorted (fun a b => strLt a b = true) →
      (l.foldl (fun acc s => insertSorted s acc) acc).Sorted
        (fun a b => strLt a b = true) := by
  intro l
  induction l with
  | nil => exact fun acc h => h
  | cons x xs ih =>
      intro acc hacc
      exact ih _ (sorted_insertSorted hacc)

/-- The `BTreeSet` model is strictly sorted (ascending, duplicate-free). -/
theorem sorted_btreeOfList {l : List String} :
    (btreeOfList l).Sorted (fun a b => strLt a b = true) :=
  sorted_btreeFold l [] (by simp)


/-- C1 failing-input evaluation: a raw docket with `opened_date` absent and a
single filing dated 2022-03-01 gets the far-future sentinel, not the filing
date — the loop can never adopt a filing date once the running minimum is
`None`. -/
theorem c1_opened_date_eval :
    opened_date_from_fillings none [some 20220301] = naiveDateMax ∧
      naiveDateMax ≠ 20220301 := by
  constructor
  · rfl
  · decide

/-- C6: if both downloading the serialized index and regenerating it fail,
the index is empty, every URL lookup returns `none`, and the attachment
revalidation pass still returns, leaving the hash exactly as it was (in
particular absent stays absent). -/
theorem c6_lookup_none_on_double_failure :
    (∀ url, lookup_hash_from_url (pull_index_from_s3 none none) url = none) ∧
      (∀ (freshUuid : Nat) (a : ProcessedGenericAttachmentM),
        ((revalidateAttachment freshUuid (pull_index_from_s3 none none) a).1).hash
          = a.hash) := by
  constructor
  · intro url
    rfl
  · intro freshUuid a
    simp only [revalidateAttachment, pull_index_from_s3, lookup_hash_from_url,
      List.find?_nil, Option.map_none']
    by_cases h : a.object_uuid = 0 <;>
      by_cases h2 : a.hash = none ∧ a.url ≠ "" <;>
        simp [h, h2]

/-- C7 counterexample: `case_type = "A-B"` does not contain the separator
`" - "`, so by the claim revalidation must leave it unchanged; the code
splits on `"-"` and rewrites it to `case_type = "A"`, `case_subtype = "B"`
with a change reported. -/
theorem c7_counterexample :
    (revalidateDocket 99 []
        { object_uuid := 1, case_type := "A-B", case_subtype := "", filings := [] })
      = ({ object_uuid := 1, case_type := "A", case_subtype := "B", filings := [] },
          true) := by
  rfl

/-- C7 amended: for a docket with empty `case_subtype` and no filings (and a
non-nil UUID, isolating the split step), revalidation splits `case_type` on
`"-"` exactly when that split yields exactly two pieces: it then stores the
two trimmed pieces and reports a change, and otherwise leaves the docket
unchanged and reports no change. -/
theorem c7_case_split (freshUuid : Nat) (index : AttachIndex)
    (d : ProcessedGenericDocketM) (hu : d.object_uuid ≠ 0)
    (hsub : d.case_subtype = "") (hf : d.filings = []) :
    (∀ x0 x1, rustSplit d.case_type "-" = [x0, x1] →
      revalidateDocket freshUuid index d =
        ({ d with case_type := rustTrim x0, case_subtype := rustTrim x1 }, true)) ∧
    ((¬ ∃ x0 x1, rustSplit d.case_type "-" = [x0, x1]) →
      revalidateDocket freshUuid index d = (d, false)) := by
  obtain ⟨u, ct, cs, fl⟩ := d
  simp only at hu hsub hf
  subst hsub
  subst hf
  constructor
  · intro x0 x1 hsplit
    simp [revalidateDocket, hu, hsplit]
  · intro hnot
    have hsplit : ∀ x0 x1, rustSplit ct "-" ≠ [x0, x1] := by
      intro x0 x1 h
      exact hnot ⟨x0, x1, h⟩
    cases h : rustSplit ct "-" with
    | nil => simp [revalidateDocket, hu, h]
    | cons a tl =>
        cases tl with
        | nil => simp [revalidateDocket, hu, h]
        | cons b tl2 =>
            cases tl2 with
            | nil => exact absurd h (hsplit a b)
            | cons c tl3 => simp [revalidateDocket, hu, h]

/-- C7 witness: instantiates the amended theorem on `case_type = "A - B"`,
recovering the spec's boundary example `("A", "B", change)`. -/
theorem c7_case_split_witness :
    (revalidateDocket 99 []
        { object_uuid := 5, case_type := "A - B", case_subtype := "", filings := [] })
      = ({ object_uuid := 5, case_type := "A", case_subtype := "B", filings := [] },
          true) := by
  have h := (c7_case_split 99 []
      { object_uuid := 5, case_type := "A - B", case_subtype := "", filings := [] }
      (by decide) rfl rfl).1 "A " " B" (by decide)
  rw [h]
  rfl

/-- C2 counterexample: a prior `dockets` row with the same `docket_govid`
`"22-00123"` but uuid 1 survives the upsert of an incoming docket with
uuid 2, so two rows carry that govid afterwards — nothing is deleted. -/
theorem c2_counterexample :
    upsert_docket [⟨1, "22-00123", "old title"⟩] ⟨2, "22-00123", "new title"⟩
        = [⟨1, "22-00123", "old title"⟩, ⟨2, "22-00123", "new title"⟩] ∧
      (upsert_docket [⟨1, "22-00123", "old title"⟩]
          ⟨2, "22-00123", "new title"⟩).countP
          (fun r => r.docket_govid == "22-00123") = 2 := by
  decide

/-- C2 amended: the upsert conflicts on `uuid` only.  When no row carries
the incoming uuid, the incoming row is appended; a prior row with the same
`docket_govid` but a different uuid is left in place, so after the upsert
both rows — which are distinct — carry that govid (the delete by govid
happens only in the retry handler after an error, not in the upsert). -/
theorem c2_upsert_keeps_stale_govid_row (tbl : List DocketRow)
    (new r : DocketRow) (hr : r ∈ tbl)
    (hgov : r.docket_govid = new.docket_govid) (huuid : r.uuid ≠ new.uuid)
    (hnoconf : ∀ x ∈ tbl, x.uuid ≠ new.uuid) :
    r ∈ upsert_docket tbl new ∧ new ∈ upsert_docket tbl new ∧ r ≠ new := by
  have hany : tbl.any (fun x => x.uuid == new.uuid) = false := by
    rw [List.any_eq_false]
    intro x hx
    simpa using hnoconf x hx
  unfold upsert_docket
  rw [hany]
  refine ⟨?_, ?_, ?_⟩
  · simpa using Or.inl hr
  · simp
  · intro h
    exact huuid (congrArg DocketRow.uuid h)

/-- C2 witness: the amended theorem applied to the concrete stale-row
scenario of the counterexample. -/
theorem c2_upsert_keeps_stale_govid_row_witness :
    (⟨1, "22-00123", "old title"⟩ : DocketRow)
        ∈ upsert_docket [⟨1, "22-00123", "old title"⟩] ⟨2, "22-00123", "new title"⟩ ∧
      (⟨2, "22-00123", "new title"⟩ : DocketRow)
        ∈ upsert_docket [⟨1, "22-00123", "old title"⟩] ⟨2, "22-00123", "new title"⟩ ∧
      (⟨1, "22-00123", "old title"⟩ : DocketRow) ≠ ⟨2, "22-00123", "new title"⟩ :=
  c2_upsert_keeps_stale_govid_row [⟨1, "22-00123", "old title"⟩]
    ⟨2, "22-00123", "new title"⟩ ⟨1, "22-00123", "old title"⟩
    (by decide) (by decide) (by decide) (by decide)

/-- C3 counterexample: `associate_organization_with_name` on an empty table
with incoming suffix `"LLC"` inserts a row whose `org_suffix` is the empty
string literal, not the incoming suffix. -/
theorem c3_counterexample :
    (associate_organization_with_name ⟨"Acme", "LLC", 0⟩ [] 1).2
        = [⟨1, "Acme", "organization", ["Acme"], ""⟩] ∧
      ("" : String) ≠ "LLC" := by
  decide

/-- C3 amended: the two claimed behaviours hold for
`fetch_or_insert_new_orgname` — on a name+type match with an empty row
suffix and non-empty incoming suffix the row's `org_suffix` is updated, and
on no match a row `(name, 'organization', [name], suffix)` is inserted —
while `associate_organization_with_name` never touches a matched row (it
only adopts the uuid) and inserts with `org_suffix = ''` regardless of the
incoming suffix. -/
theorem c3_org_resolution :
    (∀ (org_author : OrgNameM) (tbl : List OrganizationRow) (freshUuid : Nat)
        (r : OrganizationRow),
      tbl.find? (fun x =>
          x.name == org_author.name && x.artifical_person_type == "organization")
        = some r →
      r.org_suffix = "" → org_author.suffix ≠ "" →
      fetch_or_insert_new_orgname org_author tbl freshUuid =
        (r.uuid, tbl.map (fun x =>
          if x.uuid == r.uuid then { x with org_suffix := org_author.suffix }
          else x))) ∧
    (∀ (org_author : OrgNameM) (tbl : List OrganizationRow) (freshUuid : Nat),
      tbl.find? (fun x =>
          x.name == org_author.name && x.artifical_person_type == "organization")
        = none →
      fetch_or_insert_new_orgname org_author tbl freshUuid =
        (freshUuid,
          tbl ++ [⟨freshUuid, org_author.name, "organization",
            [org_author.name], org_author.suffix⟩])) ∧
    (∀ (org : ProcessedGenericOrganizationM) (tbl : List OrganizationRow)
        (freshUuid : Nat),
      org.object_uuid = 0 →
      tbl.find? (fun x => x.name == org.truncated_org_name) = none →
      associate_organization_with_name org tbl freshUuid =
        ({ org with object_uuid := freshUuid },
          tbl ++ [⟨freshUuid, org.truncated_org_name, "organization",
            [org.truncated_org_name], ""⟩])) ∧
    (∀ (org : ProcessedGenericOrganizationM) (tbl : List OrganizationRow)
        (freshUuid : Nat) (r : OrganizationRow),
      org.object_uuid = 0 →
      tbl.find? (fun x => x.name == org.truncated_org_name) = some r →
      associate_organization_with_name org tbl freshUuid =
        ({ org with object_uuid := r.uuid }, tbl)) := by
  refine ⟨?_, ?_, ?_, ?_⟩
  · intro org_author tbl freshUuid r hfind hrow hinc
    simp [fetch_or_insert_new_orgname, hfind, hrow, hinc]
  · intro org_author tbl freshUuid hfind
    simp [fetch_or_insert_new_orgname, hfind]
  · intro org tbl freshUuid h0 hfind
    simp [associate_organization_with_name, h0, hfind]
  · intro org tbl freshUuid r h0 hfind
    simp [associate_organization_with_name, h0, hfind]

/-- C3 witness: the suffix-update branch of the amended theorem at a
concrete matched row. -/
theorem c3_org_resolution_witness :
    fetch_or_insert_new_orgname ⟨"Acme", "LLC"⟩
        [⟨7, "Acme", "organization", ["Acme"], ""⟩] 9
      = (7, [⟨7, "Acme", "organization", ["Acme"], "LLC"⟩]) := by
  have h := c3_org_resolution.1 ⟨"Acme", "LLC"⟩
      [⟨7, "Acme", "organization", ["Acme"], ""⟩] 9
      ⟨7, "Acme", "organization", ["Acme"], ""⟩ (by decide) rfl (by decide)
  rw [h]
  decide

/-- C4 counterexample: a row with emails `["a@x","b@x"]` merged with an
incoming human carrying `["a@x"]` gives a merged set of cardinality 2,
which differs from the incoming side's cardinality 1 — by the claim an
UPDATE must be issued — yet the code issues none, because it compares the
merged length against the row's length only. -/
theorem c4_counterexample :
    (associate_individual_author_with_name ⟨0, "a", "b", ["a@x"], []⟩
        [⟨7, "a b", "a", "b", ["a@x", "b@x"], []⟩] 99).2.2 = false ∧
      (btreeOfList (["a@x", "b@x"] ++ ["a@x"])).length
        ≠ (["a@x"] : List String).length := by
  decide

/-- C4 amended: when the incoming human carries a nil uuid and a `humans`
row matches on western first and last name, the human adopts the row's
uuid, no row is inserted, an UPDATE with the merged arrays is issued
exactly when the merged set cardinality differs from the length of the
row's existing array (for emails or for phone numbers) — with the table
unchanged otherwise — and the merged email array is the set union of the
row's and the incoming arrays in strictly ascending string order. -/
theorem c4_author_merge (individual : ProcessedGenericHumanM)
    (tbl : List HumanRow) (freshUuid : Nat) (matched_record : HumanRow)
    (h0 : individual.object_uuid = 0)
    (hfind : tbl.find? (humanNameMatches individual) = some matched_record) :
    (associate_individual_author_with_name individual tbl freshUuid).1.object_uuid
        = matched_record.uuid ∧
      (associate_individual_author_with_name individual tbl freshUuid).2.1.length
        = tbl.length ∧
      ((associate_individual_author_with_name individual tbl freshUuid).2.2 = true ↔
        ((btreeOfList (matched_record.contact_emails ++ individual.contact_emails)).length
            ≠ matched_record.contact_emails.length ∨
          (btreeOfList (matched_record.contact_phone_numbers ++
              individual.contact_phone_numbers)).length
            ≠ matched_record.contact_phone_numbers.length)) ∧
      ((associate_individual_author_with_name individual tbl freshUuid).2.2 = false →
        (associate_individual_author_with_name individual tbl freshUuid).2.1 = tbl) ∧
      ((associate_individual_author_with_name individual tbl freshUuid).2.2 = true →
        (associate_individual_author_with_name individual tbl freshUuid).2.1 =
          tbl.map (fun r =>
            if r.uuid == matched_record.uuid then
              { r with
                contact_emails :=
                  btreeOfList (matched_record.contact_emails ++ individual.contact_emails),
                contact_phone_numbers :=
                  btreeOfList (matched_record.contact_phone_numbers ++
                    individual.contact_phone_numbers) }
            else r)) ∧
      (∀ s, s ∈ btreeOfList (matched_record.contact_emails ++ individual.contact_emails)
        ↔ s ∈ matched_record.contact_emails ∨ s ∈ individual.contact_emails) ∧
      (btreeOfList (matched_record.contact_emails ++
          individual.contact_emails)).Sorted (fun a b => strLt a b = true) := by
  have hmem : ∀ s,
      s ∈ btreeOfList (matched_record.contact_emails ++ individual.contact_emails)
        ↔ s ∈ matched_record.contact_emails ∨ s ∈ individual.contact_emails := by
    intro s
    rw [mem_btreeOfList, List.mem_append]
  have hres : associate_individual_author_with_name individual tbl freshUuid =
      ({ individual with object_uuid := matched_record.uuid },
        (if ((btreeOfList (matched_record.contact_emails ++
                individual.contact_emails)).length
              != matched_record.contact_emails.length) ||
            ((btreeOfList (matched_record.contact_phone_numbers ++
                individual.contact_phone_numbers)).length
              != matched_record.contact_phone_numbers.length) then
          tbl.map (fun r =>
            if r.uuid == matched_record.uuid then
              { r with
                contact_emails :=
                  btreeOfList (matched_record.contact_emails ++
                    individual.contact_emails),
                contact_phone_numbers :=
                  btreeOfList (matched_record.contact_phone_numbers ++
                    individual.contact_phone_numbers) }
            else r)
        else tbl),
        (((btreeOfList (matched_record.contact_emails ++
              individual.contact_emails)).length
            != matched_record.contact_emails.length) ||
          ((btreeOfList (matched_record.contact_phone_numbers ++
              individual.contact_phone_numbers)).length
            != matched_record.contact_phone_numbers.length))) := by
    simp [associate_individual_author_with_name, h0, hfind]
  rw [hres]
  cases hb : (((btreeOfList (matched_record.contact_emails ++
        individual.contact_emails)).length
      != matched_record.contact_emails.length) ||
    ((btreeOfList (matched_record.contact_phone_numbers ++
        individual.contact_phone_numbers)).length
      != matched_record.contact_phone_numbers.length)) with
  | false =>
      have hlens := Bool.or_eq_false_iff.mp hb
      have he : (btreeOfList (matched_record.contact_emails ++
          individual.contact_emails)).length
            = matched_record.contact_emails.length := by
        have h1 := hlens.1
        rwa [bne_eq_false_iff_eq] at h1
      have hp : (btreeOfList (matched_record.contact_phone_numbers ++
          individual.contact_phone_numbers)).length
            = matched_record.contact_phone_numbers.length := by
        have h2 := hlens.2
        rwa [bne_eq_false_iff_eq] at h2
      refine ⟨rfl, by simp [hb], ?_, ?_, ?_, hmem, sorted_btreeOfList⟩
      · simp [hb, he, hp]
      · intro _
        simp [hb]
      · intro hcontr
        simp [hb] at hcontr
  | true =>
      rcases Bool.or_eq_true_iff.mp hb with hd | hd
      · have hne := bne_iff_ne.mp hd
        refine ⟨rfl, by simp [hb], ?_, ?_, ?_, hmem, sorted_btreeOfList⟩
        · simp [hb, hne]
        · intro hcontr
          simp [hb] at hcontr
        · intro _
          simp [hb]
      · have hne := bne_iff_ne.mp hd
        refine ⟨rfl, by simp [hb], ?_, ?_, ?_, hmem, sorted_btreeOfList⟩
        · simp [hb, hne]
        · intro hcontr
          simp [hb] at hcontr
        · intro _
          simp [hb]

/-- C4 witness: the spec's author-merge scenario — pre-existing emails
`["a@x"]`, incoming `["b@x"]` — run through the amended theorem: the uuid
is adopted and the merge UPDATE fires. -/
theorem c4_author_merge_witness :
    (associate_individual_author_with_name ⟨0, "a", "b", ["b@x"], []⟩
        [⟨7, "a b", "a", "b", ["a@x"], []⟩] 99).1.object_uuid = 7 ∧
      (associate_individual_author_with_name ⟨0, "a", "b", ["b@x"], []⟩
        [⟨7, "a b", "a", "b", ["a@x"], []⟩] 99).2.2 = true := by
  have h := c4_author_merge ⟨0, "a", "b", ["b@x"], []⟩
      [⟨7, "a b", "a", "b", ["a@x"], []⟩] 99 ⟨7, "a b", "a", "b", ["a@x"], []⟩
      rfl (by decide)
  exact ⟨h.1, h.2.2.1.mpr (Or.inl (by decide))⟩

/-- C5 counterexample: starting from a state where every table, `humans`
included, holds 3 rows, `delete_all_data` leaves the 3 `humans` rows in
place — `humans` is not among the six truncated tables and no foreign key
cascade reaches it. -/
theorem c5_counterexample :
    delete_all_data (fun _ => 3) TableName.humans = 3 ∧ (3 : Nat) ≠ 0 :=
  ⟨rfl, by decide⟩

/-- C5 amended: `delete_all_data` issues `TRUNCATE ... CASCADE` on the six
tables `fillings_filed_by_org_relation`, `fillings_on_behalf_of_org_relation`,
`attachments`, `organizations`, `fillings`, `dockets` (in one transaction
with `statement_timeout = 0`); through the cascades this empties every
entity and relation table except `humans`, whose rows all survive the
purge. -/
theorem c5_purge (s : DbState) (t : TableName) :
    (t ≠ TableName.humans → delete_all_data s t = 0) ∧
      delete_all_data s TableName.humans = s TableName.humans := by
  constructor
  · intro ht
    cases t <;> first | rfl | exact absurd rfl ht
  · rfl

/-- C5 witness: the amended theorem at a concrete state: `dockets` is
emptied, the 3 `humans` rows survive. -/
theorem c5_purge_witness :
    delete_all_data (fun _ => 3) TableName.dockets = 0 ∧
      delete_all_data (fun _ => 3) TableName.humans = 3 :=
  ⟨(c5_purge (fun _ => 3) TableName.dockets).1 (by decide),
    (c5_purge (fun _ => 3) TableName.humans).2⟩

/-- `BTreeMap::get` after `BTreeMap::insert`: the inserted key reads back
the inserted value, every other key is untouched. -/
theorem lookupDate_btreeInsert (m : DateMap) (k : Date) (v : String) (d : Date) :
    lookupDate (btreeInsert m k v) d = if d = k then some v else lookupDate m d := by
  induction m with
  | nil =>
      by_cases h : d = k
      · subst h
        simp [btreeInsert, lookupDate]
      · simp [btreeInsert, lookupDate, h, Ne.symm h]
  | cons p rest ih =>
      obtain ⟨k2, v2⟩ := p
      by_cases h1 : k < k2
      · by_cases h : d = k
        · subst h
          simp [btreeInsert, lookupDate, h1]
        · simp [btreeInsert, lookupDate, h1, h, Ne.symm h]
      · by_cases h2 : k = k2
        · by_cases h : d = k
          · subst h
            simp [btreeInsert, lookupDate, h1, h2]
          · have hk2d : ¬ (k2 = d) := by
              rw [← h2]
              exact fun hc => h hc.symm
            have hdk2 : ¬ d = k2 := fun hc => h (hc.trans h2.symm)
            simp [btreeInsert, lookupDate, h1, h2, h, Ne.symm h, hk2d, hdk2]
        · by_cases h : d = k2
          · have hdk : ¬ d = k := by
              intro hc
              rw [hc] at h
              exact h2 h
            subst h
            simp [btreeInsert, lookupDate, h1, h2, hdk]
          · have hk2 : ¬ (k2 = d) := fun hc => h hc.symm
            simp only [btreeInsert, if_neg h1, if_neg h2, lookupDate] at ih ⊢
            rw [List.find?_cons_of_neg _ (by simpa using hk2), ih]
            by_cases hdk : d = k
            · rw [if_pos hdk, if_pos hdk]
            · rw [if_neg hdk, if_neg hdk,
                List.find?_cons_of_neg _ (by simpa using hk2)]

/-- When no fetched row carries the date, the collected map leaves that key
exactly as the accumulator had it. -/
theorem lookupDate_foldl_none :
    ∀ (rows : List (Date × String)) (m : DateMap) (d : Date),
      last_value_for rows d = none →
      lookupDate (rows.foldl (fun m p => btreeInsert m p.1 p.2) m) d =
        lookupDate m d := by
  intro rows
  induction rows with
  | nil =>
      intro m d _
      rfl
  | cons p rest ih =>
      intro m d h
      obtain ⟨k, v⟩ := p
      simp only [last_value_for] at h
      cases hlv : last_value_for rest d with
      | some g2 =>
          rw [hlv] at h
          exact absurd h (by simp)
      | none =>
          rw [hlv] at h
          by_cases hk : k = d
          · rw [if_pos hk] at h
            exact absurd h (by simp)
          · simp only [List.foldl_cons]
            rw [ih _ d hlv, lookupDate_btreeInsert, if_neg (fun hc => hk hc.symm)]

/-- When some fetched row carries the date, the collected map reads back
the last such row's govid, whatever the accumulator held before. -/
theorem lookupDate_foldl_some :
    ∀ (rows : List (Date × String)) (m : DateMap) (d : Date) (g : String),
      last_value_for rows d = some g →
      lookupDate (rows.foldl (fun m p => btreeInsert m p.1 p.2) m) d = some g := by
  intro rows
  induction rows with
  | nil =>
      intro m d g h
      simp [last_value_for] at h
  | cons p rest ih =>
      intro m d g h
      obtain ⟨k, v⟩ := p
      simp only [List.foldl_cons]
      simp only [last_value_for] at h
      cases hlv : last_value_for rest d with
      | some g2 =>
          rw [hlv] at h
          have hg : g2 = g := by simpa using h
          subst hg
          exact ih _ d g2 hlv
      | none =>
          rw [hlv] at h
          by_cases hk : k = d
          · rw [if_pos hk] at h
            rw [lookupDate_foldl_none rest _ d hlv, lookupDate_btreeInsert,
              if_pos hk.symm]
            exact h
          · rw [if_neg hk] at h
            exact absurd h (by simp)

/-- Every pair of the collected map is one of the fetched rows. -/
theorem mem_btreeInsert_sub {q : Date × String} {m : DateMap} {k : Date}
    {v : String} (h : q ∈ btreeInsert m k v) : q = (k, v) ∨ q ∈ m := by
  induction m with
  | nil => simpa [btreeInsert] using h
  | cons p rest ih =>
      obtain ⟨k2, v2⟩ := p
      by_cases h1 : k < k2
      · simp only [btreeInsert, if_pos h1] at h
        simpa using h
      · by_cases h2 : k = k2
        · simp only [btreeInsert, if_neg h1, if_pos h2] at h
          rcases List.mem_cons.mp h with rfl | h
          · exact Or.inl rfl
          · exact Or.inr (List.mem_cons.mpr (Or.inr h))
        · simp only [btreeInsert, if_neg h1, if_neg h2] at h
          rcases List.mem_cons.mp h with rfl | h
          · exact Or.inr (List.mem_cons.mpr (Or.inl rfl))
          · rcases ih h with h | h
            · exact Or.inl h
            · exact Or.inr (List.mem_cons.mpr (Or.inr h))

/-- Every pair of the collected fold is a fetched row or was already in the
accumulator. -/
theorem mem_download_sub {q : Date × String} :
    ∀ (rows : List (Date × String)) (m : DateMap),
      q ∈ rows.foldl (fun m p => btreeInsert m p.1 p.2) m →
      q ∈ rows ∨ q ∈ m := by
  intro rows
  induction rows with
  | nil =>
      intro m h
      exact Or.inr h
  | cons p rest ih =>
      intro m h
      simp only [List.foldl_cons] at h
      rcases ih _ h with h | h
      · exact Or.inl (List.mem_cons.mpr (Or.inr h))
      · rcases mem_btreeInsert_sub h with h | h
        · exact Or.inl (List.mem_cons.mpr (Or.inl (by
            obtain ⟨a, b⟩ := p
            exact h)))
        · exact Or.inr h

/-- C8 counterexample: two dockets share `opened_date = 5`; for the range
`[0, 10]` the endpoint acts only on `"B"` — the pair `(5, "A")` lies inside
the range but `"A"` is not acted on, because the `BTreeMap` keyed on
`opened_date` kept only the last govid for that date. -/
theorem c8_counterexample :
    by_daterange_docket_ids
        (download_dokito_cases_with_dates [(5, "A"), (5, "B")]) 0 10 = ["B"] ∧
      ((5 : Date), "A") ∈ [((5 : Date), "A"), (5, "B")] ∧
      (0 : Date) ≤ 5 ∧ (5 : Date) ≤ 10 ∧ "A" ∉ (["B"] : List String) := by
  refine ⟨rfl, by decide, by decide, by decide, by decide⟩

/-- C8 amended: for a ByDateRange request the orchestrator acts exactly on
the govids surviving the `BTreeMap` collection keyed on `opened_date` whose
date lies within `[start_date, end_date]` inclusive: every acted-on govid
comes from a fetched pair inside the inclusive range, and for every date in
the range carrying at least one pair, the govid of the *last* fetched pair
with that date is acted on (earlier pairs sharing the date are dropped). -/
theorem c8_daterange (rows : List (Date × String)) (s e : Date) :
    (∀ g, g ∈ by_daterange_docket_ids
        (download_dokito_cases_with_dates rows) s e →
      ∃ d, s ≤ d ∧ d ≤ e ∧ (d, g) ∈ rows) ∧
    (∀ d g, s ≤ d → d ≤ e → last_value_for rows d = some g →
      g ∈ by_daterange_docket_ids
        (download_dokito_cases_with_dates rows) s e) := by
  constructor
  · intro g hg
    simp only [by_daterange_docket_ids, List.mem_map] at hg
    obtain ⟨p, hp, rfl⟩ := hg
    rw [List.mem_filter] at hp
    obtain ⟨hpm, hrange⟩ := hp
    have hr : s ≤ p.1 ∧ p.1 ≤ e := by simpa using hrange
    rcases mem_download_sub rows [] hpm with hmem | hmem
    · exact ⟨p.1, hr.1, hr.2, by simpa using hmem⟩
    · simp at hmem
  · intro d g hs he hlv
    have hlook : lookupDate (download_dokito_cases_with_dates rows) d = some g :=
      lookupDate_foldl_some rows [] d g hlv
    simp only [lookupDate, Option.map_eq_some'] at hlook
    obtain ⟨p, hfind, hg2⟩ := hlook
    have hpm := List.mem_of_find?_eq_some hfind
    have hpd : p.1 = d := by
      have := List.find?_some hfind
      simpa using this
    refine List.mem_map.mpr ⟨p, ?_, hg2⟩
    rw [List.mem_filter]
    refine ⟨hpm, by simp [hpd, hs, he]⟩

/-- C8 witness: the amended theorem on the two colliding rows: the later
govid `"B"` is acted on for the inclusive range `[0, 10]`. -/
theorem c8_daterange_witness :
    "B" ∈ by_daterange_docket_ids
        (download_dokito_cases_with_dates [(5, "A"), (5, "B")]) 0 10 :=
  (c8_daterange [(5, "A"), (5, "B")] 0 10).2 5 "B" (by decide) (by decide)
    (by decide)

/-- C9 counterexample: the map-form input with entries `("1", 1), ("0", 0)`
describes the same elements as the list `[0, 1]` (its entries are a
permutation of the index-keyed entries of the list), yet it deserializes to
`[1, 0]`, not to the list form's `[0, 1]`: the keys are ignored and the
values are taken in map iteration order. -/
theorem c9_counterexample :
    ([("1", (1 : Nat)), ("0", 0)]).Perm (enumStringKeyed [0, 1]) ∧
      deserialize_vec_or_map (VecOrMap.map [("1", (1 : Nat)), ("0", 0)])
        ≠ deserialize_vec_or_map (VecOrMap.vec [0, 1]) := by
  constructor
  · decide
  · decide

/-- C9 amended: both list-form and map-form (string-keyed or numeric-keyed)
inputs are accepted for the sequence fields, and a map-form input
describing the same elements as a list-form input deserializes to a
permutation of the list-form's sequence — the same elements, but not
necessarily the same order, since the map's keys are ignored. -/
theorem c9_vec_or_map {T : Type} (xs : List T) (es : List (String × T))
    (ns : List (Nat × T)) (hes : es.Perm (enumStringKeyed xs))
    (hns : ns.Perm xs.enum) :
    (deserialize_vec_or_map (VecOrMap.map es)).Perm
        (deserialize_vec_or_map (VecOrMap.vec xs)) ∧
      (deserialize_vec_or_map (VecOrMap.numKeyMap ns)).Perm
        (deserialize_vec_or_map (VecOrMap.vec xs)) := by
  constructor
  · have h := hes.map (fun p => p.2)
    simp only [enumStringKeyed, List.map_map] at h
    have hsnd : (xs.enum.map ((fun p => p.2) ∘ fun p => (toString p.1, p.2)))
        = xs := by
      have : ((fun p => p.2) ∘ fun p : Nat × T => (toString p.1, p.2))
          = Prod.snd := rfl
      rw [this, List.enum_map_snd]
    rw [hsnd] at h
    exact h
  · have h := hns.map (fun p => p.2)
    have hsnd : xs.enum.map (fun p => p.2) = xs := List.enum_map_snd xs
    rw [hsnd] at h
    exact h

/-- C9 witness: the amended theorem on the counterexample's concrete data:
the reversed-entry map deserializes to a permutation of the list form. -/
theorem c9_vec_or_map_witness :
    (deserialize_vec_or_map (VecOrMap.map [("1", (1 : Nat)), ("0", 0)])).Perm
      (deserialize_vec_or_map (VecOrMap.vec [0, 1])) :=
  (c9_vec_or_map [0, 1] [("1", (1 : Nat)), ("0", 0)] (List.enum [0, 1])
    (by decide) (List.Perm.refl _)).1

/-- C10: whenever the payload carries a raw docket, the raw docket upload
to the blob store is the first visible step of the per-docket action — for
all four actions, ProcessOnly and IngestOnly included, and whatever the
outcomes of the fallible steps — so the raw blob at the docket's canonical
location is overwritten regardless of the chosen action. -/
theorem c10_raw_upload_first (case_govid : String) (action : ProcessingAction)
    (uploadOk downloadRawOk processOk downloadProcessedOk ingestOk : Bool) :
    (execute_processing_single_action (RawDocketOrGovid.rawInfo case_govid)
        action uploadOk downloadRawOk processOk downloadProcessedOk
        ingestOk).1.head?
      = some (S3Effect.uploadRawDocket case_govid) := by
  cases action <;> cases uploadOk <;> cases downloadRawOk <;> cases processOk <;>
    cases downloadProcessedOk <;> cases ingestOk <;> rfl

end Dokito
